import Mathlib

/-!
Shallow embedding of `src/main.cpp` of `heng_s64_shift`: shifting a 64-bit
signed integer represented as a pair of 32-bit lanes (`hi : s32b`,
`lo : u32b`), in a macro (reference) variant and a guarded function variant,
plus the `unpack_s64b` splitter and the `lshift_count_max` calculator used by
the differential test driver.

Modelling conventions:
* a 32-bit lane is its bit pattern, a `Nat` below `2 ^ 32`; `hi` is the
  pattern of the `s32b` lane, `lo` the value of the `u32b` lane;
* the 64-bit signed value is an `Int` in `[-2 ^ 63, 2 ^ 63)`;
* C signed shifts, casts and the arithmetic right shift are modelled as
  twos-complement wrap-around and floor division, the behavior of the
  compilers this harness targets (Lean `Int` division by a positive divisor
  is floor division, matching the arithmetic shift).
-/

namespace HengS64Shift

/-- Twos-complement reading of a 32-bit lane pattern as the signed `s32b`
value it stores. -/
def s32val (h : Nat) : Int := if h < 2 ^ 31 then (h : Int) else (h : Int) - 2 ^ 32

/-- Bit pattern, reduced modulo `2 ^ 32`, produced by storing a signed value
into a 32-bit lane (the effect of a C cast to `u32b` or `s32b`). -/
def pat32 (v : Int) : Nat := (v % 2 ^ 32).toNat

/-- Function `unpack_s64b`: `hi = (s32b)(x >> 32)` (arithmetic shift of the
64-bit value, i.e. floor division by `2 ^ 32`), and
`lo = (u32b)(x & ((INT64_C(1) << 32) - 1))` (the low 32 bits). -/
def unpack_s64b (x : Int) : Nat × Nat :=
  (pat32 (x / 2 ^ 32), (x % 2 ^ 32).toNat)

/-- Macro `s64b_LSHIFT_2(V1, V2, N)`:
`V1 = (V1<<(N)) | (V2>>(32-(N))); V2 <<= (N);`.
The signed shift `V1<<N` followed by the conversion back into a 32-bit lane
is twos-complement wrap-around (`pat32`); `V2` is unsigned, so its left shift
is modular multiplication and its right shift truncating division. -/
def s64b_LSHIFT_2 (hi lo : Nat) (n : Nat) : Nat × Nat :=
  (pat32 (s32val hi * 2 ^ n) ||| lo / 2 ^ (32 - n), lo * 2 ^ n % 2 ^ 32)

/-- Macro `s64b_RSHIFT_2(V1, V2, N)`:
`V2 = ((u32b)V1<<(32-(N))) | (V2>>(N)); V1 >>= (N);`.
`(u32b)V1` is the lane pattern `hi` itself, shifted with unsigned wrap-around;
`V1 >>= N` is the arithmetic (sign-extending) right shift, i.e. floor
division of the signed lane value. The new `lo` is computed from the old
`hi`, as in the macro text. -/
def s64b_RSHIFT_2 (hi lo : Nat) (n : Nat) : Nat × Nat :=
  (pat32 (s32val hi / 2 ^ n), hi * 2 ^ (32 - n) % 2 ^ 32 ||| lo / 2 ^ n)

/-- Guarded function `s64b_lshift`: `if (n == 0) return;` then
`*hi = (s32b)((u32b)(*hi << n) | (*lo >> (32 - n))); *lo <<= n;`. -/
def s64b_lshift (hi lo : Nat) (n : Nat) : Nat × Nat :=
  if n = 0 then (hi, lo)
  else (pat32 (s32val hi * 2 ^ n) ||| lo / 2 ^ (32 - n), lo * 2 ^ n % 2 ^ 32)

/-- Guarded function `s64b_rshift`: `if (n == 0) return;` then
`*lo = ((u32b)*hi << (32 - n)) | (*lo >> n); *hi >>= n;`. -/
def s64b_rshift (hi lo : Nat) (n : Nat) : Nat × Nat :=
  if n = 0 then (hi, lo)
  else (pat32 (s32val hi / 2 ^ n), hi * 2 ^ (32 - n) % 2 ^ 32 ||| lo / 2 ^ n)

/-- Function `f_lshift_macro`: unpack `x` and apply the macro left shift. -/
def f_lshift_macro (x : Int) (n : Nat) : Nat × Nat :=
  s64b_LSHIFT_2 (unpack_s64b x).1 (unpack_s64b x).2 n

/-- Function `f_rshift_macro`: unpack `x` and apply the macro right shift. -/
def f_rshift_macro (x : Int) (n : Nat) : Nat × Nat :=
  s64b_RSHIFT_2 (unpack_s64b x).1 (unpack_s64b x).2 n

/-- Function `f_lshift`: unpack `x` and apply the guarded left shift. -/
def f_lshift (x : Int) (n : Nat) : Nat × Nat :=
  s64b_lshift (unpack_s64b x).1 (unpack_s64b x).2 n

/-- Function `f_rshift`: unpack `x` and apply the guarded right shift. -/
def f_rshift (x : Int) (n : Nat) : Nat × Nat :=
  s64b_rshift (unpack_s64b x).1 (unpack_s64b x).2 n

/-- Modelled from the spec: `join` (absent from `src/main.cpp`, whose checker
compares lane pairs directly) reconstructs the 64-bit value from a pair as
`(high widened to 64-bit) << 32 | low zero-extended`; the low 32 bits of the
shifted widened high lane are zero, so the bitwise OR is addition. -/
def join (p : Nat × Nat) : Int := s32val p.1 * 2 ^ 32 + (p.2 : Int)

/-- Fuel-bounded binary length: for `u < 2 ^ f`, `bitlenAux f u` is the
number of binary digits of `u` (and `0` for `u = 0`). -/
def bitlenAux : Nat → Nat → Nat
  | 0, _ => 0
  | f + 1, u => if u = 0 then 0 else bitlenAux f (u / 2) + 1

/-- Builtin `__builtin_clzll` on the 64-bit pattern `u`: the count of leading
zero bits of the 64-bit representation (the C builtin is undefined at `0`;
the only caller guards that case away). -/
def clzll (u : Nat) : Int := 64 - (bitlenAux 64 u : Int)

/-- Function `lshift_count_max`:
`if (x == 0) return 31; return std::min(31, __builtin_clzll((u64b)x) - 1);`,
where the cast `(u64b)x` reduces the signed value modulo `2 ^ 64`. -/
def lshift_count_max (x : Int) : Int :=
  if x = 0 then 31 else min 31 (clzll ((x % 2 ^ 64).toNat) - 1)

/-- Shift amounts tried by the randomized left-shift sweep in `test` for a
sampled value `x`: `for (int n = 1; n <= lshift_count_max(x); ++n)`. -/
def lshift_sweep_amounts (x : Int) : List Nat :=
  List.range' 1 (lshift_count_max x).toNat

theorem bitlenAux_le (f : Nat) : ∀ u, bitlenAux f u ≤ f := by
  induction f with
  | zero => intro u; simp [bitlenAux]
  | succ f ih =>
    intro u
    by_cases h : u = 0
    · simp [bitlenAux, h]
    · rw [bitlenAux, if_neg h]
      exact Nat.succ_le_succ (ih _)

theorem lt_two_pow_bitlenAux (f : Nat) : ∀ u, u < 2 ^ f → u < 2 ^ bitlenAux f u := by
  induction f with
  | zero =>
    intro u hu
    have : u = 0 := by simpa using hu
    subst this; simp [bitlenAux]
  | succ f ih =>
    intro u hu
    by_cases h : u = 0
    · subst h; simp [bitlenAux]
    · rw [bitlenAux, if_neg h]
      have hp : 2 ^ (f + 1) = 2 * 2 ^ f := by ring
      have h2 : u / 2 < 2 ^ f := by omega
      have h3 := ih (u / 2) h2
      have hq : 2 ^ (bitlenAux f (u / 2) + 1) = 2 * 2 ^ bitlenAux f (u / 2) := by ring
      omega

theorem two_pow_pred_bitlenAux_le (f : Nat) : ∀ u, u ≠ 0 → 2 ^ (bitlenAux f u - 1) ≤ u := by
  induction f with
  | zero => intro u hu; simp [bitlenAux]; omega
  | succ f ih =>
    intro u hu
    rw [bitlenAux, if_neg hu]
    by_cases h2 : u / 2 = 0
    · have hb0 : bitlenAux f (u / 2) = 0 := by
        rw [h2]; cases f <;> simp [bitlenAux]
      rw [hb0]; simpa using by omega
    · have h1 := ih (u / 2) h2
      rcases Nat.eq_zero_or_pos (bitlenAux f (u / 2)) with hb | hb
      · rw [hb]; simpa using by omega
      · have hsp : 2 ^ bitlenAux f (u / 2) = 2 * 2 ^ (bitlenAux f (u / 2) - 1) := by
          rw [← pow_succ']
          congr 1
          omega
        have hgoal : 2 ^ (bitlenAux f (u / 2) + 1 - 1) = 2 ^ bitlenAux f (u / 2) := by
          congr 1
        rw [hgoal]
        omega

theorem bitlenAux_pos (f u : Nat) (hu : u ≠ 0) (hf : f ≠ 0) : 1 ≤ bitlenAux f u := by
  cases f with
  | zero => exact absurd rfl hf
  | succ f => rw [bitlenAux, if_neg hu]; omega

theorem pat32_natCast_eq (m : Nat) : pat32 (m : Int) = m % 2 ^ 32 := by
  rw [pat32, show ((2 : Int) ^ 32) = ((2 ^ 32 : Nat) : Int) from by push_cast,
    ← Int.natCast_mod, Int.toNat_natCast]

theorem pat32_natCast {m : Nat} (hm : m < 2 ^ 32) : pat32 (m : Int) = m := by
  rw [pat32_natCast_eq, Nat.mod_eq_of_lt hm]

theorem pat32_add_mul (v c : Int) : pat32 (v + 2 ^ 32 * c) = pat32 v := by
  simp only [pat32, Int.add_mul_emod_self_left]

theorem s32val_of_lt {h : Nat} (hh : h < 2 ^ 31) : s32val h = h := by
  rw [s32val, if_pos hh]

theorem pat32_s32val_mul (n : Nat) (h : Nat) :
    pat32 (s32val h * 2 ^ n) = h * 2 ^ n % 2 ^ 32 := by
  have key : pat32 ((h : Int) * 2 ^ n) = h * 2 ^ n % 2 ^ 32 := by
    rw [show ((h : Int) * 2 ^ n) = ((h * 2 ^ n : Nat) : Int) from by push_cast; ring,
      pat32_natCast_eq]
  rw [s32val]
  split
  · exact key
  · rw [show ((h : Int) - 2 ^ 32) * 2 ^ n = (h : Int) * 2 ^ n + 2 ^ 32 * (-(2 ^ n))
      from by ring, pat32_add_mul, key]

theorem pat32_div_natCast (n : Nat) {h : Nat} (hh : h / 2 ^ n < 2 ^ 32) :
    pat32 ((h : Int) / 2 ^ n) = h / 2 ^ n := by
  rw [show ((2 : Int) ^ n) = ((2 ^ n : Nat) : Int) from by push_cast; ring,
    ← Int.natCast_div]
  exact pat32_natCast hh

theorem s32val_pat32 {v : Int} (h0 : -(2 ^ 31) ≤ v) (h1 : v < 2 ^ 31) :
    s32val (pat32 v) = v := by
  simp only [s32val, pat32]
  split <;> omega

theorem unpack_s64b_of_nonneg {x : Int} (h0 : 0 ≤ x) (h1 : x < 2 ^ 63) :
    unpack_s64b x = (x.toNat / 2 ^ 32, x.toNat % 2 ^ 32) := by
  obtain ⟨X, rfl⟩ : ∃ X : Nat, x = (X : Int) := ⟨x.toNat, (Int.toNat_of_nonneg h0).symm⟩
  have hX : X < 2 ^ 63 := by exact_mod_cast h1
  simp only [unpack_s64b, Int.toNat_natCast]
  refine Prod.ext ?_ ?_
  · have hb : X / 2 ^ 32 < 2 ^ 32 := by omega
    simp only [pat32_div_natCast 32 hb]
  · simp only [show ((2 : Int) ^ 32) = ((2 ^ 32 : Nat) : Int) from by push_cast,
      ← Int.natCast_mod, Int.toNat_natCast]

theorem join_of_lt {a : Nat} (b : Nat) (ha : a < 2 ^ 31) :
    join (a, b) = (a : Int) * 2 ^ 32 + b := by
  simp only [join, s32val_of_lt ha]

theorem s64b_lshift_eval {X n : Nat} (hn : 1 ≤ n) (hn2 : n ≤ 31)
    (hov : X * 2 ^ n < 2 ^ 63) :
    s64b_lshift (X / 2 ^ 32) (X % 2 ^ 32) n
      = (X * 2 ^ n / 2 ^ 32, X * 2 ^ n % 2 ^ 32) := by
  have hXle : X ≤ X * 2 ^ n := Nat.le_mul_of_pos_right _ (by positivity)
  have hX : X < 2 ^ 63 := lt_of_le_of_lt hXle hov
  set H := X / 2 ^ 32 with hH
  set L := X % 2 ^ 32 with hL
  have hXd : X = 2 ^ 32 * H + L := by omega
  have hLlt : L < 2 ^ 32 := by omega
  have hsplit : 2 ^ n * 2 ^ (32 - n) = 2 ^ 32 := by
    rw [← pow_add]; congr 1; omega
  have hHn : H * 2 ^ n < 2 ^ 31 := by
    have h1 : H * 2 ^ n * 2 ^ 32 ≤ X * 2 ^ n := by
      have hx32 : H * 2 ^ 32 ≤ X := by omega
      calc H * 2 ^ n * 2 ^ 32 = H * 2 ^ 32 * 2 ^ n := by ring
        _ ≤ X * 2 ^ n := Nat.mul_le_mul_right _ hx32
    have h2 : H * 2 ^ n * 2 ^ 32 < 2 ^ 31 * 2 ^ 32 := by
      calc H * 2 ^ n * 2 ^ 32 ≤ X * 2 ^ n := h1
        _ < 2 ^ 63 := hov
        _ = 2 ^ 31 * 2 ^ 32 := by norm_num
    exact Nat.lt_of_mul_lt_mul_right h2
  have hb : L / 2 ^ (32 - n) < 2 ^ n := by
    rw [Nat.div_lt_iff_lt_mul (by positivity)]
    calc L < 2 ^ 32 := hLlt
      _ = 2 ^ n * 2 ^ (32 - n) := hsplit.symm
  have hsplit2 : 2 ^ (32 - n) * 2 ^ n = 2 ^ 32 := by rw [← hsplit]; ring
  have hXr : X * 2 ^ n = 2 ^ 32 * (2 ^ n * H) + L * 2 ^ n := by rw [hXd]; ring
  have hfst : pat32 (s32val H * 2 ^ n) ||| L / 2 ^ (32 - n) = X * 2 ^ n / 2 ^ 32 := by
    rw [pat32_s32val_mul, Nat.mod_eq_of_lt (lt_trans hHn (by norm_num)),
      mul_comm H (2 ^ n), ← Nat.mul_add_lt_is_or hb, hXr, Nat.mul_add_div (by positivity)]
    congr 1
    rw [← hsplit2, Nat.mul_div_mul_right _ _ (by positivity)]
  have hsnd : L * 2 ^ n % 2 ^ 32 = X * 2 ^ n % 2 ^ 32 := by
    conv_rhs => rw [hXd]
    rw [show (2 ^ 32 * H + L) * 2 ^ n = 2 ^ 32 * (H * 2 ^ n) + L * 2 ^ n from by ring,
      Nat.mul_add_mod]
  rw [s64b_lshift, if_neg (by omega), hfst, hsnd]

theorem s64b_rshift_eval {X n : Nat} (hn : 1 ≤ n) (hn2 : n ≤ 31) (hX : X < 2 ^ 63) :
    s64b_rshift (X / 2 ^ 32) (X % 2 ^ 32) n
      = (X / 2 ^ n / 2 ^ 32, X / 2 ^ n % 2 ^ 32) := by
  set H := X / 2 ^ 32 with hH
  set L := X % 2 ^ 32 with hL
  have hXd : X = 2 ^ 32 * H + L := by omega
  have hLlt : L < 2 ^ 32 := by omega
  have hHlt : H < 2 ^ 31 := by omega
  have hsplit : 2 ^ n * 2 ^ (32 - n) = 2 ^ 32 := by
    rw [← pow_add]; congr 1; omega
  have hsplit2 : 2 ^ (32 - n) * 2 ^ n = 2 ^ 32 := by rw [← hsplit]; ring
  have hb : L / 2 ^ n < 2 ^ (32 - n) := by
    rw [Nat.div_lt_iff_lt_mul (by positivity)]
    calc L < 2 ^ 32 := hLlt
      _ = 2 ^ (32 - n) * 2 ^ n := hsplit2.symm
  have hQ : X / 2 ^ n = 2 ^ 32 * (H / 2 ^ n) + (2 ^ (32 - n) * (H % 2 ^ n) + L / 2 ^ n) := by
    have hXe : X = 2 ^ n * (2 ^ 32 * (H / 2 ^ n) + 2 ^ (32 - n) * (H % 2 ^ n)) + L := by
      have hHd : 2 ^ n * (H / 2 ^ n) + H % 2 ^ n = H := Nat.div_add_mod H (2 ^ n)
      calc X = 2 ^ 32 * H + L := hXd
        _ = 2 ^ 32 * (2 ^ n * (H / 2 ^ n) + H % 2 ^ n) + L := by rw [hHd]
        _ = 2 ^ n * (2 ^ 32 * (H / 2 ^ n)) + (2 ^ n * 2 ^ (32 - n)) * (H % 2 ^ n) + L := by
            rw [hsplit]; ring
        _ = 2 ^ n * (2 ^ 32 * (H / 2 ^ n) + 2 ^ (32 - n) * (H % 2 ^ n)) + L := by ring
    conv_lhs => rw [hXe]
    rw [Nat.mul_add_div (by positivity), add_assoc]
  have hrem : 2 ^ (32 - n) * (H % 2 ^ n) + L / 2 ^ n < 2 ^ 32 := by
    have h1 : H % 2 ^ n < 2 ^ n := Nat.mod_lt _ (by positivity)
    have hg : 2 ^ (32 - n) * (H % 2 ^ n) ≤ 2 ^ 32 - 2 ^ (32 - n) := by
      calc 2 ^ (32 - n) * (H % 2 ^ n) ≤ 2 ^ (32 - n) * (2 ^ n - 1) :=
            Nat.mul_le_mul_left _ (by omega)
        _ = 2 ^ 32 - 2 ^ (32 - n) := by rw [mul_comm, Nat.sub_one_mul, hsplit]
    have h4 : (0 : Nat) < 2 ^ (32 - n) := by positivity
    have h5 : 2 ^ (32 - n) ≤ 2 ^ 32 := Nat.pow_le_pow_right (by norm_num) (by omega)
    omega
  have hfst : pat32 (s32val H / 2 ^ n) = X / 2 ^ n / 2 ^ 32 := by
    rw [s32val_of_lt hHlt,
      pat32_div_natCast n (lt_of_le_of_lt (Nat.div_le_self _ _) (by omega))]
    rw [hH, Nat.div_div_eq_div_mul, Nat.div_div_eq_div_mul]
    congr 1
    ring
  have hsnd : H * 2 ^ (32 - n) % 2 ^ 32 ||| L / 2 ^ n = X / 2 ^ n % 2 ^ 32 := by
    have e1 : H * 2 ^ (32 - n) % 2 ^ 32 = H % 2 ^ n * 2 ^ (32 - n) := by
      conv_lhs => rw [← hsplit]
      exact Nat.mul_mod_mul_right _ _ _
    rw [e1, mul_comm (H % 2 ^ n) (2 ^ (32 - n)), ← Nat.mul_add_lt_is_or hb, hQ,
      Nat.mul_add_mod, Nat.mod_eq_of_lt hrem]
  rw [s64b_rshift, if_neg (by omega), hfst, hsnd]

theorem unpack_s64b_natCast {X : Nat} (h1 : X < 2 ^ 63) :
    unpack_s64b (X : Int) = (X / 2 ^ 32, X % 2 ^ 32) := by
  rw [unpack_s64b_of_nonneg (by positivity) (by exact_mod_cast h1), Int.toNat_natCast]

theorem bitlen_facts {u : Nat} (h0 : u ≠ 0) (h1 : u < 2 ^ 63) :
    1 ≤ bitlenAux 64 u ∧ bitlenAux 64 u ≤ 63 ∧
      2 ^ (bitlenAux 64 u - 1) ≤ u ∧ u < 2 ^ bitlenAux 64 u := by
  have hlow := two_pow_pred_bitlenAux_le 64 u h0
  have hhigh := lt_two_pow_bitlenAux 64 u (by omega)
  have hpos := bitlenAux_pos 64 u h0 (by norm_num)
  refine ⟨hpos, ?_, hlow, hhigh⟩
  by_contra hgt
  push_neg at hgt
  have h2 : (2 : Nat) ^ 63 ≤ 2 ^ (bitlenAux 64 u - 1) :=
    Nat.pow_le_pow_right (by norm_num) (by omega)
  omega

theorem lshift_count_max_natCast {u : Nat} (h0 : u ≠ 0) (h1 : u < 2 ^ 63) :
    lshift_count_max (u : Int) = min 31 (63 - (bitlenAux 64 u : Int)) := by
  have hnz : (u : Int) ≠ 0 := by omega
  have hm : (((u : Int)) % 2 ^ 64).toNat = u := by omega
  rw [lshift_count_max, if_neg hnz, hm, clzll]
  have he : (64 : Int) - (bitlenAux 64 u : Int) - 1 = 63 - (bitlenAux 64 u : Int) := by ring
  rw [he]

theorem lshift_count_max_le_31 (x : Int) : lshift_count_max x ≤ 31 := by
  rw [lshift_count_max]
  split
  · exact le_refl _
  · exact min_le_left _ _

theorem lshift_safe {x : Int} {n : Nat} (h0 : 0 ≤ x) (h1 : x < 2 ^ 63)
    (hn : (n : Int) ≤ lshift_count_max x) : x * 2 ^ n < 2 ^ 63 := by
  obtain ⟨X, rfl⟩ : ∃ X : Nat, x = (X : Int) := ⟨x.toNat, (Int.toNat_of_nonneg h0).symm⟩
  rcases Nat.eq_zero_or_pos X with hz | hpos
  · subst hz; norm_num
  · have hX0 : X ≠ 0 := by omega
    have hX1 : X < 2 ^ 63 := by exact_mod_cast h1
    obtain ⟨hb1, hb2, hb3, hb4⟩ := bitlen_facts hX0 hX1
    rw [lshift_count_max_natCast hX0 hX1] at hn
    have hnb2 : n + bitlenAux 64 X ≤ 63 := by omega
    have hN : X * 2 ^ n < 2 ^ 63 := by
      calc X * 2 ^ n < 2 ^ bitlenAux 64 X * 2 ^ n :=
            Nat.mul_lt_mul_of_pos_right hb4 (by positivity)
        _ = 2 ^ (bitlenAux 64 X + n) := by rw [← pow_add]
        _ ≤ 2 ^ 63 := Nat.pow_le_pow_right (by norm_num) (by omega)
    calc (X : Int) * 2 ^ n = ((X * 2 ^ n : Nat) : Int) := by push_cast; ring
      _ < ((2 ^ 63 : Nat) : Int) := by exact_mod_cast hN
      _ = 2 ^ 63 := by norm_num

/-- C1: for every nonnegative 64-bit signed value `x` and every shift amount
`n` with `1 ≤ n ≤ lshift_count_max x`, the guarded left shift and the
reference (macro) left shift return identical (high, low) pairs. -/
theorem lshift_variants_agree (x : Int) (n : Nat) (h0 : 0 ≤ x) (h1 : x < 2 ^ 63)
    (hn1 : 1 ≤ n) (hn2 : (n : Int) ≤ lshift_count_max x) :
    f_lshift x n = f_lshift_macro x n := by
  unfold f_lshift f_lshift_macro s64b_lshift s64b_LSHIFT_2
  rw [if_neg (show ¬ n = 0 from by omega)]

/-- Witness for C1 at `x = 5`, `n = 1`. -/
theorem lshift_variants_agree_witness :
    0 ≤ (5 : Int) ∧ (5 : Int) < 2 ^ 63 ∧ 1 ≤ 1 ∧ ((1 : Nat) : Int) ≤ lshift_count_max 5 ∧
      f_lshift 5 1 = f_lshift_macro 5 1 :=
  ⟨by decide, by decide, by decide, by decide,
    lshift_variants_agree 5 1 (by decide) (by decide) (by decide) (by decide)⟩

/-- C2: for every nonnegative 64-bit signed value `x` and every shift amount
`n` with `1 ≤ n ≤ 31`, the guarded right shift and the reference (macro)
right shift return identical (high, low) pairs. -/
theorem rshift_variants_agree (x : Int) (n : Nat) (h0 : 0 ≤ x) (h1 : x < 2 ^ 63)
    (hn1 : 1 ≤ n) (hn2 : n ≤ 31) :
    f_rshift x n = f_rshift_macro x n := by
  unfold f_rshift f_rshift_macro s64b_rshift s64b_RSHIFT_2
  rw [if_neg (show ¬ n = 0 from by omega)]

/-- Witness for C2 at `x = 5`, `n = 1`. -/
theorem rshift_variants_agree_witness :
    0 ≤ (5 : Int) ∧ (5 : Int) < 2 ^ 63 ∧ 1 ≤ 1 ∧ 1 ≤ 31 ∧
      f_rshift 5 1 = f_rshift_macro 5 1 :=
  ⟨by decide, by decide, by decide, by decide,
    rshift_variants_agree 5 1 (by decide) (by decide) (by decide) (by decide)⟩

/-- C9: the guarded and macro right-shift variants agree on the entire 64-bit
signed domain, negative values included, for every shift amount `n` with
`1 ≤ n ≤ 31`: both run the identical lane expressions once `n = 0` is ruled
out. -/
theorem rshift_variants_agree_full_domain (x : Int) (n : Nat) (h0 : -(2 ^ 63) ≤ x)
    (h1 : x < 2 ^ 63) (hn1 : 1 ≤ n) (hn2 : n ≤ 31) :
    f_rshift x n = f_rshift_macro x n := by
  unfold f_rshift f_rshift_macro s64b_rshift s64b_RSHIFT_2
  rw [if_neg (show ¬ n = 0 from by omega)]

/-- Witness for C9 at the negative input `x = -5`, `n = 1`. -/
theorem rshift_variants_agree_full_domain_witness :
    -(2 ^ 63) ≤ (-5 : Int) ∧ (-5 : Int) < 2 ^ 63 ∧ 1 ≤ 1 ∧ 1 ≤ 31 ∧
      f_rshift (-5) 1 = f_rshift_macro (-5) 1 :=
  ⟨by decide, by decide, by decide, by decide,
    rshift_variants_agree_full_domain (-5) 1 (by decide) (by decide) (by decide) (by decide)⟩

/-- C7: for every nonnegative 64-bit signed value `x`, the guarded variants
with shift amount `0` return the pair `unpack_s64b x` unchanged in both
directions. -/
theorem shift_zero_amount_identity (x : Int) (h0 : 0 ≤ x) (h1 : x < 2 ^ 63) :
    f_lshift x 0 = unpack_s64b x ∧ f_rshift x 0 = unpack_s64b x := by
  constructor
  · simp [f_lshift, s64b_lshift]
  · simp [f_rshift, s64b_rshift]

/-- Witness for C7 at `x = 5`. -/
theorem shift_zero_amount_identity_witness :
    0 ≤ (5 : Int) ∧ (5 : Int) < 2 ^ 63 ∧
      (f_lshift 5 0 = unpack_s64b 5 ∧ f_rshift 5 0 = unpack_s64b 5) :=
  ⟨by decide, by decide, shift_zero_amount_identity 5 (by decide) (by decide)⟩

/-- C8: for every shift amount `n` with `1 ≤ n ≤ 31`, shifting the value `0`
yields the pair `(0, 0)` in both directions and for both variants. -/
theorem zero_value_fixed_point (n : Nat) (hn1 : 1 ≤ n) (hn2 : n ≤ 31) :
    f_lshift 0 n = (0, 0) ∧ f_lshift_macro 0 n = (0, 0) ∧
      f_rshift 0 n = (0, 0) ∧ f_rshift_macro 0 n = (0, 0) := by
  have hs0 : s32val 0 = 0 := by decide
  have hp0 : pat32 0 = 0 := by decide
  have hu : unpack_s64b 0 = (0, 0) := by decide
  refine ⟨?_, ?_, ?_, ?_⟩ <;>
    simp [f_lshift, f_lshift_macro, f_rshift, f_rshift_macro, hu, s64b_lshift,
      s64b_rshift, s64b_LSHIFT_2, s64b_RSHIFT_2, hs0, hp0,
      if_neg (show ¬ n = 0 from by omega)]

/-- Witness for C8 at `n = 1`. -/
theorem zero_value_fixed_point_witness :
    1 ≤ 1 ∧ 1 ≤ 31 ∧
      (f_lshift 0 1 = (0, 0) ∧ f_lshift_macro 0 1 = (0, 0) ∧
        f_rshift 0 1 = (0, 0) ∧ f_rshift_macro 0 1 = (0, 0)) :=
  ⟨by decide, by decide, zero_value_fixed_point 1 (by decide) (by decide)⟩

/-- C3: for a nonnegative 64-bit signed value `x` and `1 ≤ n ≤
lshift_count_max x`, reassembling the guarded left-shift pair with `join`
yields exactly `x * 2 ^ n`. -/
theorem lshift_reconstructs_mul (x : Int) (n : Nat) (h0 : 0 ≤ x) (h1 : x < 2 ^ 63)
    (hn1 : 1 ≤ n) (hn2 : (n : Int) ≤ lshift_count_max x) :
    join (f_lshift x n) = x * 2 ^ n := by
  have hn31 : n ≤ 31 := by
    have h := lshift_count_max_le_31 x
    omega
  have hov := lshift_safe h0 h1 hn2
  obtain ⟨X, rfl⟩ : ∃ X : Nat, x = (X : Int) := ⟨x.toNat, (Int.toNat_of_nonneg h0).symm⟩
  have hX1 : X < 2 ^ 63 := by exact_mod_cast h1
  have hovN : X * 2 ^ n < 2 ^ 63 := by exact_mod_cast hov
  rw [f_lshift, unpack_s64b_natCast hX1]
  show join (s64b_lshift (X / 2 ^ 32) (X % 2 ^ 32) n) = (X : Int) * 2 ^ n
  rw [s64b_lshift_eval hn1 hn31 hovN,
    show ((X : Int)) * 2 ^ n = ((X * 2 ^ n : Nat) : Int) from by push_cast; ring]
  set Y := X * 2 ^ n with hY
  rw [join_of_lt _ (by omega)]
  omega

/-- Witness for C3 at `x = 5`, `n = 1`: the reassembled shift is `10`. -/
theorem lshift_reconstructs_mul_witness :
    0 ≤ (5 : Int) ∧ (5 : Int) < 2 ^ 63 ∧ 1 ≤ 1 ∧ ((1 : Nat) : Int) ≤ lshift_count_max 5 ∧
      join (f_lshift 5 1) = 5 * 2 ^ 1 :=
  ⟨by decide, by decide, by decide, by decide,
    lshift_reconstructs_mul 5 1 (by decide) (by decide) (by decide) (by decide)⟩

/-- C4: for a nonnegative 64-bit signed value `x` and `1 ≤ n ≤ 31`,
reassembling the guarded right-shift pair with `join` yields exactly the
integer quotient `x / 2 ^ n`. -/
theorem rshift_reconstructs_div (x : Int) (n : Nat) (h0 : 0 ≤ x) (h1 : x < 2 ^ 63)
    (hn1 : 1 ≤ n) (hn2 : n ≤ 31) :
    join (f_rshift x n) = x / 2 ^ n := by
  obtain ⟨X, rfl⟩ : ∃ X : Nat, x = (X : Int) := ⟨x.toNat, (Int.toNat_of_nonneg h0).symm⟩
  have hX1 : X < 2 ^ 63 := by exact_mod_cast h1
  rw [f_rshift, unpack_s64b_natCast hX1]
  show join (s64b_rshift (X / 2 ^ 32) (X % 2 ^ 32) n) = (X : Int) / 2 ^ n
  rw [s64b_rshift_eval hn1 hn2 hX1,
    show ((2 : Int) ^ n) = ((2 ^ n : Nat) : Int) from by push_cast; ring, ← Int.natCast_div]
  set Q := X / 2 ^ n with hQ
  have hQlt : Q < 2 ^ 63 := lt_of_le_of_lt (Nat.div_le_self _ _) hX1
  rw [join_of_lt _ (by omega)]
  omega

/-- Witness for C4 at `x = 5`, `n = 1`: the reassembled shift is `2`. -/
theorem rshift_reconstructs_div_witness :
    0 ≤ (5 : Int) ∧ (5 : Int) < 2 ^ 63 ∧ 1 ≤ 1 ∧ 1 ≤ 31 ∧
      join (f_rshift 5 1) = 5 / 2 ^ 1 :=
  ⟨by decide, by decide, by decide, by decide,
    rshift_reconstructs_div 5 1 (by decide) (by decide) (by decide) (by decide)⟩

/-- C5: for every 64-bit signed value `x`, negative values included,
reassembling the pair `unpack_s64b x` with `join` reproduces `x` exactly. -/
theorem join_unpack_roundtrip (x : Int) (h0 : -(2 ^ 63) ≤ x) (h1 : x < 2 ^ 63) :
    join (unpack_s64b x) = x := by
  have hd1 : x / 2 ^ 32 < 2 ^ 31 := by
    have h := Int.ediv_le_ediv (show (0 : Int) < 2 ^ 32 from by positivity)
      (show x ≤ 2 ^ 63 - 1 from by omega)
    have he : ((2 : Int) ^ 63 - 1) / 2 ^ 32 = 2 ^ 31 - 1 := by decide
    omega
  have hd0 : -(2 ^ 31) ≤ x / 2 ^ 32 := by
    have h := Int.ediv_le_ediv (show (0 : Int) < 2 ^ 32 from by positivity) h0
    have he : (-(2 : Int) ^ 63) / 2 ^ 32 = -(2 ^ 31) := by decide
    omega
  rw [unpack_s64b]
  show s32val (pat32 (x / 2 ^ 32)) * 2 ^ 32 + ((x % 2 ^ 32).toNat : Int) = x
  rw [s32val_pat32 hd0 hd1, Int.toNat_of_nonneg (Int.emod_nonneg x (by positivity))]
  omega

/-- Witness for C5 at the negative input `x = -5`. -/
theorem join_unpack_roundtrip_witness :
    -(2 ^ 63) ≤ (-5 : Int) ∧ (-5 : Int) < 2 ^ 63 ∧ join (unpack_s64b (-5)) = -5 :=
  ⟨by decide, by decide, join_unpack_roundtrip (-5) (by decide) (by decide)⟩

/-- C6: `lshift_count_max 0 = 31`; for every positive 64-bit signed `x` the
returned count `m` lies in `0..=31`, left-shifting `x` by `m` stays at most
`INT64_MAX = 2 ^ 63 - 1`, and left-shifting by `m + 1` overflows whenever
`m + 1 ≤ 31`. -/
theorem lshift_count_max_correct :
    lshift_count_max 0 = 31 ∧
      ∀ x : Int, 0 < x → x < 2 ^ 63 →
        0 ≤ lshift_count_max x ∧ lshift_count_max x ≤ 31 ∧
          x * 2 ^ (lshift_count_max x).toNat ≤ 2 ^ 63 - 1 ∧
          (lshift_count_max x + 1 ≤ 31 →
            2 ^ 63 - 1 < x * 2 ^ ((lshift_count_max x).toNat + 1)) := by
  refine ⟨by decide, ?_⟩
  intro x hx0 hx1
  obtain ⟨X, rfl⟩ : ∃ X : Nat, x = (X : Int) :=
    ⟨x.toNat, (Int.toNat_of_nonneg (le_of_lt hx0)).symm⟩
  have hX0 : X ≠ 0 := by omega
  have hX1 : X < 2 ^ 63 := by exact_mod_cast hx1
  obtain ⟨hb1, hb2, hb3, hb4⟩ := bitlen_facts hX0 hX1
  rw [lshift_count_max_natCast hX0 hX1]
  set b := bitlenAux 64 X with hbdef
  refine ⟨le_min (by norm_num) (by omega), min_le_left _ _, ?_, ?_⟩
  · have hmn : (min 31 (63 - (b : Int))).toNat + b ≤ 63 := by omega
    have hN : X * 2 ^ (min 31 (63 - (b : Int))).toNat < 2 ^ 63 := by
      calc X * 2 ^ (min 31 (63 - (b : Int))).toNat
          < 2 ^ b * 2 ^ (min 31 (63 - (b : Int))).toNat :=
            Nat.mul_lt_mul_of_pos_right hb4 (by positivity)
        _ = 2 ^ (b + (min 31 (63 - (b : Int))).toNat) := by rw [← pow_add]
        _ ≤ 2 ^ 63 := Nat.pow_le_pow_right (by norm_num) (by omega)
    have hNi : ((X * 2 ^ (min 31 (63 - (b : Int))).toNat : Nat) : Int) < 2 ^ 63 := by
      exact_mod_cast hN
    calc (X : Int) * 2 ^ (min 31 (63 - (b : Int))).toNat
        = ((X * 2 ^ (min 31 (63 - (b : Int))).toNat : Nat) : Int) := by push_cast; ring
      _ ≤ 2 ^ 63 - 1 := by omega
  · intro hlt
    have hb33 : 33 ≤ b := by omega
    have hmn : (min 31 (63 - (b : Int))).toNat = 63 - b := by omega
    rw [hmn]
    have hN : 2 ^ 63 ≤ X * 2 ^ (63 - b + 1) := by
      calc (2 : Nat) ^ 63 = 2 ^ (b - 1) * 2 ^ (63 - b + 1) := by
            rw [← pow_add]; congr 1; omega
        _ ≤ X * 2 ^ (63 - b + 1) := Nat.mul_le_mul_right _ hb3
    have hNi : ((2 ^ 63 : Nat) : Int) ≤ ((X * 2 ^ (63 - b + 1) : Nat) : Int) := by
      exact_mod_cast hN
    have hcast : ((X * 2 ^ (63 - b + 1) : Nat) : Int) = (X : Int) * 2 ^ (63 - b + 1) := by
      push_cast; ring
    rw [← hcast]
    have h63 : ((2 ^ 63 : Nat) : Int) = 2 ^ 63 := by norm_num
    omega

/-- Witness for C6 applying the positive-value part at `x = 5`. -/
theorem lshift_count_max_correct_witness :
    0 < (5 : Int) ∧ (5 : Int) < 2 ^ 63 ∧
      (0 ≤ lshift_count_max 5 ∧ lshift_count_max 5 ≤ 31 ∧
        (5 : Int) * 2 ^ (lshift_count_max 5).toNat ≤ 2 ^ 63 - 1 ∧
        (lshift_count_max 5 + 1 ≤ 31 →
          2 ^ 63 - 1 < (5 : Int) * 2 ^ ((lshift_count_max 5).toNat + 1))) :=
  ⟨by decide, by decide, lshift_count_max_correct.2 5 (by decide) (by decide)⟩

/-- C10: for nonnegative `x` the count lies in `0..=31`; for positive `x` it
is `0` exactly when `2 ^ 62 ≤ x`; consequently the left-shift sweep amount
list is empty for any sampled `x ≥ 2 ^ 62`, so such values are never passed
to check_lshift. -/
theorem lshift_count_range_and_sweep (x : Int) (h0 : 0 ≤ x) (h1 : x < 2 ^ 63) :
    (0 ≤ lshift_count_max x ∧ lshift_count_max x ≤ 31) ∧
      (0 < x → (lshift_count_max x = 0 ↔ 2 ^ 62 ≤ x)) ∧
      (2 ^ 62 ≤ x → lshift_sweep_amounts x = []) := by
  rcases eq_or_lt_of_le h0 with hz | hpos
  · rw [← hz]
    exact ⟨⟨by decide, by decide⟩, fun h => absurd h (by decide),
      fun h => absurd h (by decide)⟩
  · obtain ⟨X, rfl⟩ : ∃ X : Nat, x = (X : Int) := ⟨x.toNat, (Int.toNat_of_nonneg h0).symm⟩
    have hX0 : X ≠ 0 := by omega
    have hX1 : X < 2 ^ 63 := by exact_mod_cast h1
    obtain ⟨hb1, hb2, hb3, hb4⟩ := bitlen_facts hX0 hX1
    have heval := lshift_count_max_natCast hX0 hX1
    set b := bitlenAux 64 X with hbdef
    have hb63 : 2 ^ 62 ≤ X ↔ b = 63 := by
      constructor
      · intro hge
        by_contra hne
        have hle : b ≤ 62 := by omega
        have hpow : (2 : Nat) ^ b ≤ 2 ^ 62 := Nat.pow_le_pow_right (by norm_num) hle
        omega
      · intro he
        have h62 : 62 ≤ b - 1 := by omega
        exact le_trans (Nat.pow_le_pow_right (by norm_num) h62) hb3
    refine ⟨⟨?_, ?_⟩, fun _ => ?_, fun h62 => ?_⟩
    · rw [heval]
      exact le_min (by norm_num) (by omega)
    · rw [heval]
      exact min_le_left _ _
    · rw [heval]
      constructor
      · intro hm
        have hbe : b = 63 := by omega
        have hx62 := hb63.mpr hbe
        exact_mod_cast hx62
      · intro hge
        have hgeN : 2 ^ 62 ≤ X := by exact_mod_cast hge
        have hbe := hb63.mp hgeN
        rw [hbe]
        decide
    · have hgeN : 2 ^ 62 ≤ X := by exact_mod_cast h62
      have hbe := hb63.mp hgeN
      have hm0 : lshift_count_max ((X : Nat) : Int) = 0 := by
        rw [heval, hbe]
        decide
      rw [lshift_sweep_amounts, hm0]
      rfl

/-- Witness for C10 at `x = 2 ^ 62`, where the sweep list is empty. -/
theorem lshift_count_range_and_sweep_witness :
    0 ≤ ((2 : Int) ^ 62) ∧ ((2 : Int) ^ 62) < 2 ^ 63 ∧
      ((0 ≤ lshift_count_max (2 ^ 62) ∧ lshift_count_max (2 ^ 62) ≤ 31) ∧
        (0 < (2 : Int) ^ 62 → (lshift_count_max (2 ^ 62) = 0 ↔ 2 ^ 62 ≤ (2 : Int) ^ 62)) ∧
        (2 ^ 62 ≤ (2 : Int) ^ 62 → lshift_sweep_amounts (2 ^ 62) = [])) :=
  ⟨by decide, by decide, lshift_count_range_and_sweep (2 ^ 62) (by decide) (by decide)⟩

end HengS64Shift
